import Mathlib

/-
Shallow embedding of the bitarr crate (src/lib.rs, src/store.rs,
src/iter.rs, src/bit_fmt.rs).

Storage types are the recursive universe generated by native unsigned
integers (modelled as a bit width `w`) and fixed-size arrays `[T; N]` of
conforming elements.  A storage value is an untyped tree (`V`): a natural
number below `2 ^ w` for an integer, a list of element values for an
array; the decidable predicate `wf` ties a value to its shape exactly as
Rust's type system does.

Rust's debug-build panics (the `debug_assertions` bound checks inside the
unsafe primitives, slice-index panics, division by zero) are modelled as
`Option`: `none` is a panic, `some` a normal return.
-/

namespace Bitarr

/-- Shape of a storage type: a native unsigned integer of width `w` bits,
or a fixed-size array `[T; N]` of a conforming element shape. -/
inductive Shape : Type where
  | uint : Nat → Shape
  | arr : Nat → Shape → Shape
deriving DecidableEq, Repr

/-- Bit capacity of a shape: the associated constant `BITS` from the
`BitStore` trait (`core::mem::size_of * 8` for integers, `N * T::BITS`
for arrays). -/
def Shape.BITS : Shape → Nat
  | .uint w => w
  | .arr n s => n * s.BITS

/-- A storage value: an integer value or an array of element values. -/
inductive V : Type where
  | nat : Nat → V
  | arr : List V → V

/-- Well-formedness of a value at a shape: an integer value fits the
width, an array has exactly `n` well-formed elements.  This is what the
Rust type system guarantees statically. -/
def wf : Shape → V → Bool
  | .uint w, .nat v => v < 2 ^ w
  | .arr n s, .arr l => l.length == n && l.all (fun x => wf s x)
  | _, _ => false

/-- Raw `BitStore::get` (debug build).  For an integer: panic when
`index >= Self::BITS`, otherwise `(1 << index) & *self != 0`.  For an
array: split the index as `(index / T::BITS, index % T::BITS)` and
recurse into the selected element (`none` models the division-by-zero or
slice-index panic).  A shape/value mismatch cannot occur in Rust and is
also modelled as `none`. -/
def getD : Shape → V → Nat → Option Bool
  | .uint w, .nat v, i =>
    if i < w then some ((1 <<< i) &&& v != 0) else none
  | .arr _ s, .arr l, i =>
    if s.BITS = 0 then none
    else
      match l[i / s.BITS]? with
      | some e => getD s e (i % s.BITS)
      | none => none
  | _, _, _ => none

/-- Value of bit `i`, the pure reading of `getD` on its non-panicking
domain. -/
def bitAt (s : Shape) (v : V) (i : Nat) : Bool :=
  (getD s v i).getD false

/-- Raw `BitStoreMut::set` (debug build).  For an integer:
`*self |= 1 << index` after the debug bound check.  For an array: recurse
into element `index / T::BITS` at sub-index `index % T::BITS`. -/
def setD : Shape → V → Nat → Option V
  | .uint w, .nat v, i =>
    if i < w then some (.nat (v ||| (1 <<< i))) else none
  | .arr _ s, .arr l, i =>
    if s.BITS = 0 then none
    else
      match l[i / s.BITS]? with
      | some e => (setD s e (i % s.BITS)).map (fun x => .arr (l.set (i / s.BITS) x))
      | none => none
  | _, _, _ => none

/-- Raw `BitStoreMut::unset` (debug build).  For an integer:
`*self &= !(1 << index)`; the complement of `1 << i` in `w` bits is
`(2 ^ w - 1) ^^^ (1 <<< i)`. -/
def unsetD : Shape → V → Nat → Option V
  | .uint w, .nat v, i =>
    if i < w then some (.nat (v &&& ((2 ^ w - 1) ^^^ (1 <<< i)))) else none
  | .arr _ s, .arr l, i =>
    if s.BITS = 0 then none
    else
      match l[i / s.BITS]? with
      | some e => (unsetD s e (i % s.BITS)).map (fun x => .arr (l.set (i / s.BITS) x))
      | none => none
  | _, _, _ => none

/-- In-place union `BitStoreMut::union_with`: `*self |= *other` for
integers, element-wise for arrays (`iter_mut().zip(other.iter())`). -/
def union_with : Shape → V → V → V
  | .uint _, .nat a, .nat b => .nat (a ||| b)
  | .arr _ s, .arr l1, .arr l2 => .arr (List.zipWith (fun x y => union_with s x y) l1 l2)
  | _, v, _ => v

/-- In-place intersection `BitStoreMut::intersect_with`:
`*self &= *other` for integers, element-wise for arrays. -/
def intersect_with : Shape → V → V → V
  | .uint _, .nat a, .nat b => .nat (a &&& b)
  | .arr _ s, .arr l1, .arr l2 => .arr (List.zipWith (fun x y => intersect_with s x y) l1 l2)
  | _, v, _ => v

/-- In-place difference `BitStoreMut::difference_with`:
`*self &= !*other` for integers (the complement of a `w`-bit value `b` is
`(2 ^ w - 1) ^^^ b`), element-wise for arrays. -/
def difference_with : Shape → V → V → V
  | .uint w, .nat a, .nat b => .nat (a &&& ((2 ^ w - 1) ^^^ b))
  | .arr _ s, .arr l1, .arr l2 => .arr (List.zipWith (fun x y => difference_with s x y) l1 l2)
  | _, v, _ => v

/-- In-place symmetric difference
`BitStoreMut::symmetric_difference_with`: `*self ^= *other` for integers,
element-wise for arrays. -/
def symmetric_difference_with : Shape → V → V → V
  | .uint _, .nat a, .nat b => .nat (a ^^^ b)
  | .arr _ s, .arr l1, .arr l2 =>
    .arr (List.zipWith (fun x y => symmetric_difference_with s x y) l1 l2)
  | _, v, _ => v

/-- In-place complement `BitStoreMut::negate`: `*self = !*self` for
integers (XOR with the all-ones `w`-bit mask), element-wise for
arrays. -/
def negate : Shape → V → V
  | .uint w, .nat v => .nat (v ^^^ (2 ^ w - 1))
  | .arr _ s, .arr l => .arr (l.map (fun x => negate s x))
  | _, v => v

/-- The loop of the array trailing/leading run counters over the
per-element run lengths: `result += run`, and break after the first
element whose run is not the full element width `B`. -/
def chainRuns (B : Nat) : List Nat → Nat
  | [] => 0
  | t :: rest => if t = B then B + chainRuns B rest else t

/-- `BitStore::trailing_zeros`.  For an integer the hardware intrinsic:
the length of the maximal run of zero bits starting at bit 0 of the
`w`-bit representation.  For an array: chain the per-element runs in
ascending element order. -/
def trailing_zeros : Shape → V → Nat
  | .uint w, .nat v =>
    ((List.range w).takeWhile (fun i => (1 <<< i) &&& v == 0)).length
  | .arr _ s, .arr l => chainRuns s.BITS (l.map (fun x => trailing_zeros s x))
  | _, _ => 0

/-- `BitStore::trailing_ones`: same traversal over one bits. -/
def trailing_ones : Shape → V → Nat
  | .uint w, .nat v =>
    ((List.range w).takeWhile (fun i => (1 <<< i) &&& v != 0)).length
  | .arr _ s, .arr l => chainRuns s.BITS (l.map (fun x => trailing_ones s x))
  | _, _ => 0

/-- `BitStore::leading_zeros`.  For an integer: the maximal run of zero
bits from the high end (bit `w - 1` downward).  For an array: chain the
per-element runs in descending element order (`iter().rev()`). -/
def leading_zeros : Shape → V → Nat
  | .uint w, .nat v =>
    ((List.range w).reverse.takeWhile (fun i => (1 <<< i) &&& v == 0)).length
  | .arr _ s, .arr l => chainRuns s.BITS (l.reverse.map (fun x => leading_zeros s x))
  | _, _ => 0

/-- `BitStore::leading_ones`: same traversal over one bits. -/
def leading_ones : Shape → V → Nat
  | .uint w, .nat v =>
    ((List.range w).reverse.takeWhile (fun i => (1 <<< i) &&& v != 0)).length
  | .arr _ s, .arr l => chainRuns s.BITS (l.reverse.map (fun x => leading_ones s x))
  | _, _ => 0

/-- Loop body of `fmt::Binary for BinaryDisplay`, parameterised by the
loop counter: for `bit in (0..n).rev()`, write `'_'` when
`(bit + 1) % 4 == 0`, then write the bit as `'1'` or `'0'`. -/
def binCharsAux (s : Shape) (v : V) : Nat → List Char
  | 0 => []
  | b + 1 =>
    (if (b + 1) % 4 = 0 then ['_'] else [])
      ++ ((if bitAt s v b then '1' else '0') :: binCharsAux s v b)

/-- All characters the formatter writes after the `0b` prefix. -/
def binChars (s : Shape) (v : V) : List Char :=
  binCharsAux s v s.BITS

/-- Full output of `fmt::Binary for BinaryDisplay`: the `0b` prefix
followed by the digit/separator characters. -/
def binFmt (s : Shape) (v : V) : List Char :=
  '0' :: 'b' :: binChars s v

/-- Facade `BitSet::get`: `None` when `index >= S::BITS`, otherwise
`Some` of the raw get.  The outer `Option` models the (unreachable)
panic of the raw primitive: `none` is a panic, `some r` a normal return
of `r`. -/
def bs_get (s : Shape) (v : V) (i : Nat) : Option (Option Bool) :=
  if s.BITS ≤ i then some none
  else
    match getD s v i with
    | some x => some (some x)
    | none => none

/-- Facade `BitSet::set`: bound check, then read the old bit and set the
new one, returning `Some old` together with the updated storage.  The
outer `Option` again models the unreachable panic path. -/
def bs_set (s : Shape) (v : V) (i : Nat) : Option (Option Bool × V) :=
  if s.BITS ≤ i then some (none, v)
  else
    match getD s v i, setD s v i with
    | some old, some v2 => some (some old, v2)
    | _, _ => none

/-- Facade `BitSet::unset`: bound check, read the old bit, clear it. -/
def bs_unset (s : Shape) (v : V) (i : Nat) : Option (Option Bool × V) :=
  if s.BITS ≤ i then some (none, v)
  else
    match getD s v i, unsetD s v i with
    | some old, some v2 => some (some old, v2)
    | _, _ => none

/-- Facade `BitSet::change`: dispatch to `set` when `value` is true and
to `unset` otherwise. -/
def bs_change (s : Shape) (v : V) (i : Nat) (value : Bool) : Option (Option Bool × V) :=
  if value then bs_set s v i else bs_unset s v i

/-- Positional indexing `ops::Index<u32> for BitSet`: panic (`none`) when
`index >= S::BITS`, otherwise the bare boolean from the raw get. -/
def index_op (s : Shape) (v : V) (i : Nat) : Option Bool :=
  if s.BITS ≤ i then none
  else getD s v i

/-- State of the `Bits` iterator: the storage value plus the half-open
index range `lo..hi` (Rust `Range<u32>` start and end). -/
structure BitsSt : Type where
  bits : V
  lo : Nat
  hi : Nat

/-- Constructor `Bits::with_range`: panic (`none`) exactly when
`range.end > S::BITS`; the range start is not inspected. -/
def with_range (s : Shape) (v : V) (lo hi : Nat) : Option BitsSt :=
  if hi > s.BITS then none else some ⟨v, lo, hi⟩

/-- Constructor `Bits::new`: the full range `0..S::BITS`. -/
def bits_new (s : Shape) (v : V) : BitsSt :=
  ⟨v, 0, s.BITS⟩

/-- ExactSizeIterator `len`: the remaining count of the index range
(`end - start`, clamped at zero like `Range`'s size hint). -/
def bitsLen (b : BitsSt) : Nat :=
  b.hi - b.lo

/-- Iterator `next`: consume the range's low end and yield that index's
bit; `none` with the state unchanged when the range is empty. -/
def bitsNext (s : Shape) (b : BitsSt) : Option Bool × BitsSt :=
  if b.lo < b.hi then (some (bitAt s b.bits b.lo), ⟨b.bits, b.lo + 1, b.hi⟩)
  else (none, b)

/-- DoubleEndedIterator `next_back`: consume the range's high end and
yield that index's bit. -/
def bitsNextBack (s : Shape) (b : BitsSt) : Option Bool × BitsSt :=
  if b.lo < b.hi then (some (bitAt s b.bits (b.hi - 1)), ⟨b.bits, b.lo, b.hi - 1⟩)
  else (none, b)

/-- Driver for an arbitrary interleaving of forward (`true`) and backward
(`false`) steps, recording for each yielded bit the index it came from
(the range's low end before a forward step, the high end minus one before
a backward step). -/
def runSteps (s : Shape) : List Bool → BitsSt → List (Nat × Bool) × BitsSt
  | [], b => ([], b)
  | d :: ds, b =>
    match (if d then bitsNext s b else bitsNextBack s b) with
    | (none, b2) => runSteps s ds b2
    | (some x, b2) =>
      let i := if d then b.lo else b.hi - 1
      let r := runSteps s ds b2
      ((i, x) :: r.1, r.2)

/-- Modelled from the spec: the brute-force per-bit scan the spec compares
the run counters against.  The bit sequence of a storage value, lowest
index first. -/
def bitSeq (s : Shape) (v : V) : List Bool :=
  (List.range s.BITS).map (fun i => bitAt s v i)

/-- Modelled from the spec: brute-force trailing-zero count, the length
of the maximal all-false prefix of the bit sequence. -/
def bruteTrailing (s : Shape) (v : V) (one : Bool) : Nat :=
  ((bitSeq s v).takeWhile (fun b => b == one)).length

/-- Modelled from the spec: brute-force leading count, the same scan from
the high end. -/
def bruteLeading (s : Shape) (v : V) (one : Bool) : Nat :=
  ((bitSeq s v).reverse.takeWhile (fun b => b == one)).length

/-- Modelled from the spec: the separator discipline the spec claims for
the formatter output after the prefix; true when no underscore is last
and every underscore is immediately followed by a non-underscore
character. -/
def sepOk : List Char → Bool
  | [] => true
  | c :: rest =>
    if c = '_' then
      match rest with
      | [] => false
      | c2 :: _ => (c2 != '_') && sepOk rest
    else sepOk rest

/-! Basic lemmas about the embedding. -/

theorem one_shiftLeft_and_bne (v i : Nat) : ((1 <<< i) &&& v != 0) = v.testBit i := by
  rw [Nat.one_shiftLeft, Nat.two_pow_and]
  cases h : v.testBit i <;> simp [h, (Nat.two_pow_pos i).ne']

theorem one_shiftLeft_and_beq (v i : Nat) : ((1 <<< i) &&& v == 0) = !v.testBit i := by
  rw [← one_shiftLeft_and_bne v i]
  cases h : (1 <<< i) &&& v == 0 <;> simp_all

theorem wf_uint_iff {w v : Nat} : wf (.uint w) (.nat v) = true ↔ v < 2 ^ w := by
  simp [wf]

theorem wf_arr_iff {n : Nat} {s : Shape} {l : List V} :
    wf (.arr n s) (.arr l) = true ↔ l.length = n ∧ ∀ x ∈ l, wf s x = true := by
  simp [wf, List.all_eq_true]

theorem getD_uint {w v i : Nat} (h : i < w) :
    getD (.uint w) (.nat v) i = some (v.testBit i) := by
  simp [getD, h, one_shiftLeft_and_bne]

theorem bitAt_uint {w v i : Nat} (h : i < w) :
    bitAt (.uint w) (.nat v) i = v.testBit i := by
  simp [bitAt, getD_uint h]

theorem getD_arr {n : Nat} {s : Shape} {l : List V} {i : Nat}
    (hB : 0 < s.BITS) (hq : i / s.BITS < l.length) :
    getD (.arr n s) (.arr l) i = getD s (l.get ⟨i / s.BITS, hq⟩) (i % s.BITS) := by
  simp [getD, hB.ne', List.getElem?_eq_getElem hq]

theorem bitAt_arr {n : Nat} {s : Shape} {l : List V} {i : Nat}
    (hB : 0 < s.BITS) (hq : i / s.BITS < l.length) :
    bitAt (.arr n s) (.arr l) i = bitAt s (l.get ⟨i / s.BITS, hq⟩) (i % s.BITS) := by
  simp [bitAt, getD_arr hB hq]

theorem div_lt_len {n B i : Nat} (h : i < n * B) : i / B < n := by
  rcases Nat.eq_zero_or_pos B with h0 | h0
  · subst h0
    simp at h
  · exact (Nat.div_lt_iff_lt_mul h0).mpr (by omega)

theorem eq_of_div_mod_eq {B i j : Nat} (hd : j / B = i / B) (hm : j % B = i % B) : j = i := by
  have h1 := (Nat.div_add_mod j B).symm
  rw [hd, hm, Nat.div_add_mod] at h1
  exact h1

/-- Master lemma for the raw primitives on their checked domain: for a
well-formed value and an in-range index, `get` returns the bit, and
`set`/`unset` return an updated value whose bit `i` is written and whose
other bits are untouched. -/
theorem raw_ops_spec (s : Shape) : ∀ (v : V), wf s v = true → ∀ i, i < s.BITS →
    getD s v i = some (bitAt s v i)
    ∧ (∃ v', setD s v i = some v'
        ∧ ∀ j, j < s.BITS → bitAt s v' j = (if j = i then true else bitAt s v j))
    ∧ (∃ v', unsetD s v i = some v'
        ∧ ∀ j, j < s.BITS → bitAt s v' j = (if j = i then false else bitAt s v j)) := by
  induction s with
  | uint w =>
    intro v hwf i hi
    cases v with
    | arr l => simp [wf] at hwf
    | nat x =>
      simp only [Shape.BITS] at hi
      refine ⟨by rw [bitAt_uint hi]; exact getD_uint hi,
        ⟨.nat (x ||| (1 <<< i)), ?_, ?_⟩, ⟨.nat (x &&& ((2 ^ w - 1) ^^^ (1 <<< i))), ?_, ?_⟩⟩
      · simp [setD, hi]
      · intro j hj
        simp only [Shape.BITS] at hj
        rw [bitAt_uint hj, bitAt_uint hj, Nat.one_shiftLeft]
        rcases eq_or_ne j i with h | h
        · simp [h, Nat.testBit_two_pow]
        · simp [h, Nat.testBit_two_pow, Ne.symm h]
      · simp [unsetD, hi]
      · intro j hj
        simp only [Shape.BITS] at hj
        rw [bitAt_uint hj, bitAt_uint hj, Nat.one_shiftLeft]
        rcases eq_or_ne j i with h | h
        · simp [h, Nat.testBit_two_pow, hi]
        · simp [h, Nat.testBit_two_pow, Ne.symm h, hj]
  | arr n t ih =>
    intro v hwf i hi
    cases v with
    | nat x => simp [wf] at hwf
    | arr l =>
      obtain ⟨hlen, hall⟩ := wf_arr_iff.mp hwf
      simp only [Shape.BITS] at hi
      have hq : i / t.BITS < l.length := hlen ▸ div_lt_len hi
      have hB : 0 < t.BITS := by
        rcases Nat.eq_zero_or_pos t.BITS with h0 | h0
        · rw [h0] at hi
          simp at hi
        · exact h0
      have hr : i % t.BITS < t.BITS := Nat.mod_lt _ hB
      set e := l.get ⟨i / t.BITS, hq⟩ with he
      have hewf : wf t e = true := hall _ (List.get_mem l _ _)
      obtain ⟨hget, ⟨vs, hvs, hvs_bits⟩, ⟨vu, hvu, hvu_bits⟩⟩ := ih e hewf _ hr
      have harr_set : ∀ (x : V) (bnew : Bool),
          (∀ j, j < t.BITS → bitAt t x j = (if j = i % t.BITS then bnew else bitAt t e j)) →
          ∀ j, j < (Shape.arr n t).BITS →
            bitAt (.arr n t) (.arr (l.set (i / t.BITS) x)) j
              = (if j = i then bnew else bitAt (.arr n t) (.arr l) j) := by
        intro x bnew hx j hj
        simp only [Shape.BITS] at hj
        have hq'' : j / t.BITS < l.length := hlen ▸ div_lt_len hj
        have hq' : j / t.BITS < (l.set (i / t.BITS) x).length := by
          rw [List.length_set]
          exact hq''
        rw [bitAt_arr hB hq', bitAt_arr hB hq'']
        rcases eq_or_ne (j / t.BITS) (i / t.BITS) with hdq | hdq
        · have hx_at : (l.set (i / t.BITS) x).get ⟨j / t.BITS, hq'⟩ = x := by
            have h1 : (l.set (i / t.BITS) x)[j / t.BITS]? = some x := by
              rw [hdq]
              exact List.getElem?_set_self hq
            rw [List.getElem?_eq_getElem hq'] at h1
            simpa [List.get_eq_getElem] using h1
          rw [hx_at, hx _ (Nat.mod_lt _ hB)]
          rcases eq_or_ne j i with hji | hji
          · simp [hji]
          · have hmm : j % t.BITS ≠ i % t.BITS := by
              intro hmeq
              exact hji (eq_of_div_mod_eq hdq hmeq)
            simp [hji, hmm, hdq, he]
        · have hx_at : (l.set (i / t.BITS) x).get ⟨j / t.BITS, hq'⟩ = l.get ⟨j / t.BITS, hq''⟩ := by
            have h1 : (l.set (i / t.BITS) x)[j / t.BITS]? = l[j / t.BITS]? :=
              List.getElem?_set_ne (Ne.symm hdq)
            rw [List.getElem?_eq_getElem hq', List.getElem?_eq_getElem hq''] at h1
            simpa [List.get_eq_getElem] using h1
          rw [hx_at]
          have hji : j ≠ i := by
            intro hje
            exact hdq (by rw [hje])
          simp [hji]
      refine ⟨?_, ⟨.arr (l.set (i / t.BITS) vs), ?_, harr_set vs true hvs_bits⟩,
        ⟨.arr (l.set (i / t.BITS) vu), ?_, harr_set vu false hvu_bits⟩⟩
      · rw [getD_arr hB hq, ← he, hget, bitAt_arr hB hq, he]
      · have hgl : l[i / t.BITS]? = some e := by
          rw [he, List.getElem?_eq_getElem hq, List.get_eq_getElem]
        simp [setD, hB.ne', hgl, hvs]
      · have hgl : l[i / t.BITS]? = some e := by
          rw [he, List.getElem?_eq_getElem hq, List.get_eq_getElem]
        simp [unsetD, hB.ne', hgl, hvu]

/-! Claims about the checked facade operations. -/

/-- C9: for every storage shape, well-formed value and every index, including
indices at or beyond `S::BITS`, the checked operations `get`, `set`, `unset`
and `change` never reach the debug-build panic branch of the raw primitives:
each call returns (`isSome` in the panic-as-`none` model), with either the
checked `None` or a value. -/
theorem facade_checked_ops_never_panic (s : Shape) (v : V) (hwf : wf s v = true)
    (i : Nat) (value : Bool) :
    (bs_get s v i).isSome ∧ (bs_set s v i).isSome ∧ (bs_unset s v i).isSome
      ∧ (bs_change s v i value).isSome := by
  rcases Nat.lt_or_ge i s.BITS with hi | hi
  · obtain ⟨hget, ⟨vs, hvs, -⟩, ⟨vu, hvu, -⟩⟩ := raw_ops_spec s v hwf i hi
    have hnot : ¬ s.BITS ≤ i := by omega
    refine ⟨?_, ?_, ?_, ?_⟩
    · simp [bs_get, hnot, hget]
    · simp [bs_set, hnot, hget, hvs]
    · simp [bs_unset, hnot, hget, hvu]
    · cases value <;> simp [bs_change, bs_set, bs_unset, hnot, hget, hvs, hvu]
  · have hle : s.BITS ≤ i := hi
    refine ⟨?_, ?_, ?_, ?_⟩
    · simp [bs_get, hle]
    · simp [bs_set, hle]
    · simp [bs_unset, hle]
    · cases value <;> simp [bs_change, bs_set, bs_unset, hle]

theorem facade_checked_ops_never_panic_witness :
    wf (Shape.uint 8) (V.nat 0) = true
    ∧ (bs_get (Shape.uint 8) (V.nat 0) 12).isSome
    ∧ (bs_set (Shape.uint 8) (V.nat 0) 12).isSome
    ∧ (bs_unset (Shape.uint 8) (V.nat 0) 12).isSome
    ∧ (bs_change (Shape.uint 8) (V.nat 0) 12 true).isSome :=
  ⟨by decide, facade_checked_ops_never_panic (Shape.uint 8) (V.nat 0) (by decide) 12 true⟩

/-- C1: the checked operations return `None` exactly when the index is at or
beyond `S::BITS`, leaving the stored bits completely unchanged on that path;
in range, `get` returns `Some` of the current bit, `set`/`unset` return
`Some` of the previous bit together with the updated storage whose bit `i`
now holds the written value, and `change` dispatches to `set` for a true
argument and to `unset` for a false one. -/
theorem checked_ops_spec (s : Shape) (v : V) (hwf : wf s v = true) (i : Nat) :
    (s.BITS ≤ i →
      bs_get s v i = some none
      ∧ bs_set s v i = some (none, v)
      ∧ bs_unset s v i = some (none, v)
      ∧ bs_change s v i true = some (none, v)
      ∧ bs_change s v i false = some (none, v))
    ∧ (i < s.BITS →
      bs_get s v i = some (some (bitAt s v i))
      ∧ (∃ v', bs_set s v i = some (some (bitAt s v i), v') ∧ bitAt s v' i = true)
      ∧ (∃ v', bs_unset s v i = some (some (bitAt s v i), v') ∧ bitAt s v' i = false)
      ∧ bs_change s v i true = bs_set s v i
      ∧ bs_change s v i false = bs_unset s v i) := by
  constructor
  · intro hle
    refine ⟨?_, ?_, ?_, ?_, ?_⟩ <;> simp [bs_get, bs_set, bs_unset, bs_change, hle]
  · intro hi
    obtain ⟨hget, ⟨vs, hvs, hvs_bits⟩, ⟨vu, hvu, hvu_bits⟩⟩ := raw_ops_spec s v hwf i hi
    have hnot : ¬ s.BITS ≤ i := by omega
    refine ⟨by simp [bs_get, hnot, hget], ⟨vs, ?_, ?_⟩, ⟨vu, ?_, ?_⟩, rfl, rfl⟩
    · simp [bs_set, hnot, hget, hvs]
    · simpa using hvs_bits i hi
    · simp [bs_unset, hnot, hget, hvu]
    · simpa using hvu_bits i hi

theorem checked_ops_spec_witness :
    wf (Shape.uint 8) (V.nat 5) = true
    ∧ bs_get (Shape.uint 8) (V.nat 5) 3 = some (some false)
    ∧ bs_get (Shape.uint 8) (V.nat 5) 9 = some none
    ∧ bs_set (Shape.uint 8) (V.nat 5) 9 = some (none, V.nat 5) := by
  have h := checked_ops_spec (Shape.uint 8) (V.nat 5) (by decide) 3
  have h9 := checked_ops_spec (Shape.uint 8) (V.nat 5) (by decide) 9
  have h1 := (h.2 (by decide)).1
  have h2 := (h9.1 (by decide)).1
  have h3 := (h9.1 (by decide)).2.1
  refine ⟨by decide, ?_, h2, h3⟩
  rw [h1]
  rfl

/-- C2: at storage level, after `set(i)` the bit `i` reads true and every
other in-range index keeps its prior value; after `unset(i)` the bit `i`
reads false and every other index is likewise unchanged. -/
theorem set_unset_frame (s : Shape) (v : V) (hwf : wf s v = true) (i : Nat)
    (hi : i < s.BITS) :
    (∀ v', setD s v i = some v' →
      bitAt s v' i = true ∧ ∀ j, j < s.BITS → j ≠ i → bitAt s v' j = bitAt s v j)
    ∧ (∀ v', unsetD s v i = some v' →
      bitAt s v' i = false ∧ ∀ j, j < s.BITS → j ≠ i → bitAt s v' j = bitAt s v j) := by
  obtain ⟨-, ⟨vs, hvs, hvs_bits⟩, ⟨vu, hvu, hvu_bits⟩⟩ := raw_ops_spec s v hwf i hi
  constructor
  · intro v' hv'
    rw [hvs] at hv'
    obtain rfl : vs = v' := by injection hv'
    refine ⟨by simpa using hvs_bits i hi, ?_⟩
    intro j hj hne
    have := hvs_bits j hj
    simpa [hne] using this
  · intro v' hv'
    rw [hvu] at hv'
    obtain rfl : vu = v' := by injection hv'
    refine ⟨by simpa using hvu_bits i hi, ?_⟩
    intro j hj hne
    have := hvu_bits j hj
    simpa [hne] using this

theorem set_unset_frame_witness :
    wf (Shape.arr 2 (Shape.uint 8)) (V.arr [V.nat 5, V.nat 0]) = true
    ∧ (9 : Nat) < (Shape.arr 2 (Shape.uint 8)).BITS
    ∧ setD (Shape.arr 2 (Shape.uint 8)) (V.arr [V.nat 5, V.nat 0]) 9
        = some (V.arr [V.nat 5, V.nat 2])
    ∧ bitAt (Shape.arr 2 (Shape.uint 8)) (V.arr [V.nat 5, V.nat 2]) 9 = true
    ∧ bitAt (Shape.arr 2 (Shape.uint 8)) (V.arr [V.nat 5, V.nat 2]) 2
        = bitAt (Shape.arr 2 (Shape.uint 8)) (V.arr [V.nat 5, V.nat 0]) 2 := by
  have h := set_unset_frame (Shape.arr 2 (Shape.uint 8)) (V.arr [V.nat 5, V.nat 0])
    (by decide) 9 (by decide)
  have hset : setD (Shape.arr 2 (Shape.uint 8)) (V.arr [V.nat 5, V.nat 0]) 9
      = some (V.arr [V.nat 5, V.nat 2]) := by rfl
  have h1 := h.1 _ hset
  exact ⟨by decide, by decide, hset, h1.1, h1.2 2 (by decide) (by decide)⟩

/-! Claims about the in-place set-algebra operations. -/

theorem get_zipWith {α β γ : Type} {f : α → β → γ} {l1 : List α} {l2 : List β} {q : Nat}
    (h1 : q < l1.length) (h2 : q < l2.length) (hq : q < (List.zipWith f l1 l2).length) :
    (List.zipWith f l1 l2).get ⟨q, hq⟩ = f (l1.get ⟨q, h1⟩) (l2.get ⟨q, h2⟩) := by
  have h : (List.zipWith f l1 l2)[q]? = match l1[q]?, l2[q]? with
      | some a, some b => some (f a b)
      | _, _ => none := List.getElem?_zipWith
  rw [List.getElem?_eq_getElem hq, List.getElem?_eq_getElem h1, List.getElem?_eq_getElem h2] at h
  simp [List.get_eq_getElem] at h ⊢

theorem get_map {α β : Type} {f : α → β} {l : List α} {q : Nat}
    (h1 : q < l.length) (hq : q < (l.map f).length) :
    (l.map f).get ⟨q, hq⟩ = f (l.get ⟨q, h1⟩) := by
  simp [List.get_eq_getElem]

/-- C3: for every storage shape and every pair of well-formed values, the
in-place bulk operations act per-bit: union is OR, intersection is AND,
difference is AND-NOT, symmetric difference is XOR, and negation
complements every in-range bit, element-wise for composite storage. -/
theorem bulk_ops_bitwise (s : Shape) : ∀ (v1 v2 : V), wf s v1 = true → wf s v2 = true →
    ∀ i, i < s.BITS →
      bitAt s (union_with s v1 v2) i = (bitAt s v1 i || bitAt s v2 i)
      ∧ bitAt s (intersect_with s v1 v2) i = (bitAt s v1 i && bitAt s v2 i)
      ∧ bitAt s (difference_with s v1 v2) i = (bitAt s v1 i && !bitAt s v2 i)
      ∧ bitAt s (symmetric_difference_with s v1 v2) i = (bitAt s v1 i ^^ bitAt s v2 i)
      ∧ bitAt s (negate s v1) i = !bitAt s v1 i := by
  induction s with
  | uint w =>
    intro v1 v2 h1 h2 i hi
    cases v1 with
    | arr l => simp [wf] at h1
    | nat a =>
      cases v2 with
      | arr l => simp [wf] at h2
      | nat b =>
        simp only [Shape.BITS] at hi
        simp only [union_with, intersect_with, difference_with,
          symmetric_difference_with, negate]
        refine ⟨?_, ?_, ?_, ?_, ?_⟩ <;>
          simp [bitAt_uint hi, Nat.testBit_or, Nat.testBit_and, Nat.testBit_xor,
            Nat.testBit_two_pow_sub_one, hi, Bool.and_comm]
  | arr n t ih =>
    intro v1 v2 h1 h2 i hi
    cases v1 with
    | nat a => simp [wf] at h1
    | arr l1 =>
      cases v2 with
      | nat b => simp [wf] at h2
      | arr l2 =>
        obtain ⟨hlen1, hall1⟩ := wf_arr_iff.mp h1
        obtain ⟨hlen2, hall2⟩ := wf_arr_iff.mp h2
        simp only [Shape.BITS] at hi
        have hB : 0 < t.BITS := by
          rcases Nat.eq_zero_or_pos t.BITS with h0 | h0
          · rw [h0] at hi
            simp at hi
          · exact h0
        have hq1 : i / t.BITS < l1.length := hlen1 ▸ div_lt_len hi
        have hq2 : i / t.BITS < l2.length := hlen2 ▸ div_lt_len hi
        have hr : i % t.BITS < t.BITS := Nat.mod_lt _ hB
        have hwf1 : wf t (l1.get ⟨i / t.BITS, hq1⟩) = true := hall1 _ (List.get_mem l1 _ _)
        have hwf2 : wf t (l2.get ⟨i / t.BITS, hq2⟩) = true := hall2 _ (List.get_mem l2 _ _)
        obtain ⟨hu, hx, hd, hs, hn⟩ :=
          ih (l1.get ⟨i / t.BITS, hq1⟩) (l2.get ⟨i / t.BITS, hq2⟩) hwf1 hwf2 _ hr
        have hlz : ∀ (f : V → V → V), i / t.BITS < (List.zipWith f l1 l2).length := by
          intro f
          rw [List.length_zipWith]
          omega
        have hlm : i / t.BITS < (l1.map (fun x => negate t x)).length := by
          rw [List.length_map]
          exact hq1
        refine ⟨?_, ?_, ?_, ?_, ?_⟩
        · rw [show union_with (.arr n t) (.arr l1) (.arr l2)
              = .arr (List.zipWith (fun x y => union_with t x y) l1 l2) from rfl,
            bitAt_arr hB (hlz _), get_zipWith hq1 hq2, bitAt_arr hB hq1, bitAt_arr hB hq2]
          exact hu
        · rw [show intersect_with (.arr n t) (.arr l1) (.arr l2)
              = .arr (List.zipWith (fun x y => intersect_with t x y) l1 l2) from rfl,
            bitAt_arr hB (hlz _), get_zipWith hq1 hq2, bitAt_arr hB hq1, bitAt_arr hB hq2]
          exact hx
        · rw [show difference_with (.arr n t) (.arr l1) (.arr l2)
              = .arr (List.zipWith (fun x y => difference_with t x y) l1 l2) from rfl,
            bitAt_arr hB (hlz _), get_zipWith hq1 hq2, bitAt_arr hB hq1, bitAt_arr hB hq2]
          exact hd
        · rw [show symmetric_difference_with (.arr n t) (.arr l1) (.arr l2)
              = .arr (List.zipWith (fun x y => symmetric_difference_with t x y) l1 l2) from rfl,
            bitAt_arr hB (hlz _), get_zipWith hq1 hq2, bitAt_arr hB hq1, bitAt_arr hB hq2]
          exact hs
        · rw [show negate (.arr n t) (.arr l1)
              = .arr (l1.map (fun x => negate t x)) from rfl,
            bitAt_arr hB hlm, get_map hq1, bitAt_arr hB hq1]
          exact hn

theorem bulk_ops_bitwise_witness :
    wf (Shape.arr 2 (Shape.uint 8)) (V.arr [V.nat 12, V.nat 1]) = true
    ∧ wf (Shape.arr 2 (Shape.uint 8)) (V.arr [V.nat 10, V.nat 255]) = true
    ∧ (2 : Nat) < (Shape.arr 2 (Shape.uint 8)).BITS
    ∧ (bitAt (Shape.arr 2 (Shape.uint 8))
        (union_with (Shape.arr 2 (Shape.uint 8)) (V.arr [V.nat 12, V.nat 1]) (V.arr [V.nat 10, V.nat 255])) 2
        = (bitAt (Shape.arr 2 (Shape.uint 8)) (V.arr [V.nat 12, V.nat 1]) 2
            || bitAt (Shape.arr 2 (Shape.uint 8)) (V.arr [V.nat 10, V.nat 255]) 2)
      ∧ bitAt (Shape.arr 2 (Shape.uint 8))
        (intersect_with (Shape.arr 2 (Shape.uint 8)) (V.arr [V.nat 12, V.nat 1]) (V.arr [V.nat 10, V.nat 255])) 2
        = (bitAt (Shape.arr 2 (Shape.uint 8)) (V.arr [V.nat 12, V.nat 1]) 2
            && bitAt (Shape.arr 2 (Shape.uint 8)) (V.arr [V.nat 10, V.nat 255]) 2)
      ∧ bitAt (Shape.arr 2 (Shape.uint 8))
        (difference_with (Shape.arr 2 (Shape.uint 8)) (V.arr [V.nat 12, V.nat 1]) (V.arr [V.nat 10, V.nat 255])) 2
        = (bitAt (Shape.arr 2 (Shape.uint 8)) (V.arr [V.nat 12, V.nat 1]) 2
            && !bitAt (Shape.arr 2 (Shape.uint 8)) (V.arr [V.nat 10, V.nat 255]) 2)
      ∧ bitAt (Shape.arr 2 (Shape.uint 8))
        (symmetric_difference_with (Shape.arr 2 (Shape.uint 8)) (V.arr [V.nat 12, V.nat 1]) (V.arr [V.nat 10, V.nat 255])) 2
        = (bitAt (Shape.arr 2 (Shape.uint 8)) (V.arr [V.nat 12, V.nat 1]) 2
            ^^ bitAt (Shape.arr 2 (Shape.uint 8)) (V.arr [V.nat 10, V.nat 255]) 2)
      ∧ bitAt (Shape.arr 2 (Shape.uint 8))
        (negate (Shape.arr 2 (Shape.uint 8)) (V.arr [V.nat 12, V.nat 1])) 2
        = !bitAt (Shape.arr 2 (Shape.uint 8)) (V.arr [V.nat 12, V.nat 1]) 2) :=
  ⟨by decide, by decide, by decide,
    bulk_ops_bitwise (Shape.arr 2 (Shape.uint 8)) (V.arr [V.nat 12, V.nat 1])
      (V.arr [V.nat 10, V.nat 255]) (by decide) (by decide) 2 (by decide)⟩

/-- C8: applying `negate` twice restores every storage value exactly, for
every storage shape, integer or composite, recursively. -/
theorem negate_involution (s : Shape) : ∀ (v : V), negate s (negate s v) = v := by
  induction s with
  | uint w =>
    intro v
    cases v with
    | nat x =>
      simp only [negate]
      rw [Nat.xor_assoc]
      simp
    | arr l => rfl
  | arr n t ih =>
    intro v
    cases v with
    | nat x => rfl
    | arr l =>
      simp only [negate, List.map_map]
      have hcongr : ∀ x ∈ l, (negate t ∘ negate t) x = id x := fun x _ => ih x
      rw [List.map_congr_left hcongr, List.map_id]

/-! Claims about the trailing/leading run counters. -/

theorem takeWhile_congr_mem {α : Type} {p q : α → Bool} :
    ∀ {l : List α}, (∀ a ∈ l, p a = q a) → l.takeWhile p = l.takeWhile q
  | [], _ => rfl
  | a :: l, h => by
    have ha := h a (List.mem_cons_self a l)
    have hl : ∀ x ∈ l, p x = q x := fun x hx => h x (List.mem_cons_of_mem a hx)
    simp only [List.takeWhile_cons, ha, takeWhile_congr_mem hl]

theorem takeWhile_length_append {α : Type} (p : α → Bool) (l1 l2 : List α) :
    ((l1 ++ l2).takeWhile p).length
      = if (l1.takeWhile p).length = l1.length
        then l1.length + (l2.takeWhile p).length
        else (l1.takeWhile p).length := by
  rw [List.takeWhile_append]
  split <;> simp

theorem chain_takeWhile_flatten {α : Type} (p : α → Bool) (B : Nat) :
    ∀ (L : List (List α)), (∀ bl ∈ L, bl.length = B) →
      chainRuns B (L.map (fun bl => (bl.takeWhile p).length))
        = ((L.flatten).takeWhile p).length
  | [], _ => rfl
  | bl :: L, h => by
    have hbl : bl.length = B := h bl (List.mem_cons_self bl L)
    have hL : ∀ x ∈ L, x.length = B := fun x hx => h x (List.mem_cons_of_mem bl hx)
    simp only [List.map_cons, List.flatten_cons, chainRuns, takeWhile_length_append, hbl]
    rcases eq_or_ne ((bl.takeWhile p).length) B with he | he
    · simp [he, chain_takeWhile_flatten p B L hL]
    · simp [he]

theorem getD_arr_head {n : Nat} {s : Shape} {e : V} {rest : List V} {i : Nat}
    (hi : i < s.BITS) :
    getD (.arr n s) (.arr (e :: rest)) i = getD s e i := by
  have hB : s.BITS ≠ 0 := by omega
  simp [getD, hB, Nat.div_eq_of_lt hi, Nat.mod_eq_of_lt hi]

theorem getD_arr_shift (n m : Nat) {s : Shape} {e : V} {rest : List V} (j : Nat) :
    getD (.arr n s) (.arr (e :: rest)) (s.BITS + j) = getD (.arr m s) (.arr rest) j := by
  rcases Nat.eq_zero_or_pos s.BITS with h0 | h0
  · simp [getD, h0]
  · have hd : (s.BITS + j) / s.BITS = j / s.BITS + 1 := by
      rw [Nat.add_comm]
      exact Nat.add_div_right j h0
    have hm : (s.BITS + j) % s.BITS = j % s.BITS := Nat.add_mod_left _ _
    simp [getD, h0.ne', hd, hm]

theorem bitSeq_arr (s : Shape) :
    ∀ (l : List V) (n : Nat), l.length = n →
      bitSeq (.arr n s) (.arr l) = (l.map (fun x => bitSeq s x)).flatten := by
  intro l
  induction l with
  | nil =>
    intro n hlen
    subst hlen
    simp [bitSeq, Shape.BITS]
  | cons e rest ih =>
    intro n hlen
    subst hlen
    have hbits : (Shape.arr (e :: rest).length s).BITS
        = s.BITS + rest.length * s.BITS := by
      simp only [Shape.BITS, List.length_cons]
      ring
    have hsplit : bitSeq (.arr (e :: rest).length s) (.arr (e :: rest))
        = (List.range s.BITS).map
            (fun i => bitAt (.arr (e :: rest).length s) (.arr (e :: rest)) i)
          ++ (List.range (rest.length * s.BITS)).map
              (fun j => bitAt (.arr (e :: rest).length s) (.arr (e :: rest)) (s.BITS + j)) := by
      simp only [bitSeq, hbits, List.range_add, List.map_append, List.map_map]
      rfl
    rw [hsplit]
    simp only [List.map_cons, List.flatten_cons]
    congr 1
    · simp only [bitSeq]
      apply List.map_congr_left
      intro i hi
      have hi' : i < s.BITS := List.mem_range.mp hi
      simp [bitAt, getD_arr_head hi']
    · rw [← ih rest.length rfl]
      simp only [bitSeq, Shape.BITS, List.length_cons]
      apply List.map_congr_left
      intro j _
      simp [bitAt, getD_arr_shift (rest.length + 1) rest.length j]

theorem bitSeq_length (s : Shape) (v : V) : (bitSeq s v).length = s.BITS := by
  simp [bitSeq]

/-- C4: for every storage shape and well-formed value, the four run
counters equal the brute-force per-bit scan from the corresponding end,
with composite storage chaining across element boundaries: an element
contributes its full width and the scan continues into the next element
exactly when its run covers the whole element. -/
theorem runs_eq_brute (s : Shape) : ∀ (v : V), wf s v = true →
    trailing_zeros s v = bruteTrailing s v false
    ∧ trailing_ones s v = bruteTrailing s v true
    ∧ leading_zeros s v = bruteLeading s v false
    ∧ leading_ones s v = bruteLeading s v true := by
  induction s with
  | uint w =>
    intro v hwf
    cases v with
    | arr l => simp [wf] at hwf
    | nat x =>
      refine ⟨?_, ?_, ?_, ?_⟩ <;>
      · simp only [trailing_zeros, trailing_ones, leading_zeros, leading_ones,
          bruteTrailing, bruteLeading, bitSeq, ← List.map_reverse, List.takeWhile_map,
          List.length_map]
        congr 1
        apply takeWhile_congr_mem
        intro i hi
        have hi' : i < w := by
          first
          | exact List.mem_range.mp hi
          | exact List.mem_range.mp (List.mem_reverse.mp hi)
        simp [Function.comp, bitAt_uint hi', one_shiftLeft_and_beq, one_shiftLeft_and_bne]
  | arr n t ih =>
    intro v hwf
    cases v with
    | nat x => simp [wf] at hwf
    | arr l =>
      obtain ⟨hlen, hall⟩ := wf_arr_iff.mp hwf
      have hflat := bitSeq_arr t l n hlen
      have hlens : ∀ bl ∈ l.map (fun x => bitSeq t x), bl.length = t.BITS := by
        intro bl hbl
        obtain ⟨x, -, rfl⟩ := List.mem_map.mp hbl
        exact bitSeq_length t x
      have hlensR : ∀ bl ∈ l.reverse.map (fun x => (bitSeq t x).reverse),
          bl.length = t.BITS := by
        intro bl hbl
        obtain ⟨x, -, rfl⟩ := List.mem_map.mp hbl
        simp [bitSeq_length t x]
      have hrevflat : (bitSeq (.arr n t) (.arr l)).reverse
          = (l.reverse.map (fun x => (bitSeq t x).reverse)).flatten := by
        rw [hflat, List.reverse_flatten, List.map_map]
        congr 1
        rw [← List.map_reverse]
        rfl
      refine ⟨?_, ?_, ?_, ?_⟩
      · rw [show trailing_zeros (.arr n t) (.arr l)
            = chainRuns t.BITS (l.map (fun x => trailing_zeros t x)) from rfl]
        rw [List.map_congr_left (fun x hx => (ih x (hall x hx)).1),
          show (l.map fun x => bruteTrailing t x false)
            = (l.map (fun x => bitSeq t x)).map
                (fun bl => (bl.takeWhile (fun b => b == false)).length) by
            rw [List.map_map]; rfl,
          chain_takeWhile_flatten _ _ _ hlens, ← hflat]
        rfl
      · rw [show trailing_ones (.arr n t) (.arr l)
            = chainRuns t.BITS (l.map (fun x => trailing_ones t x)) from rfl]
        rw [List.map_congr_left (fun x hx => (ih x (hall x hx)).2.1),
          show (l.map fun x => bruteTrailing t x true)
            = (l.map (fun x => bitSeq t x)).map
                (fun bl => (bl.takeWhile (fun b => b == true)).length) by
            rw [List.map_map]; rfl,
          chain_takeWhile_flatten _ _ _ hlens, ← hflat]
        rfl
      · rw [show leading_zeros (.arr n t) (.arr l)
            = chainRuns t.BITS (l.reverse.map (fun x => leading_zeros t x)) from rfl]
        rw [List.map_congr_left (fun x hx =>
            (ih x (hall x (List.mem_reverse.mp hx))).2.2.1),
          show (l.reverse.map fun x => bruteLeading t x false)
            = (l.reverse.map (fun x => (bitSeq t x).reverse)).map
                (fun bl => (bl.takeWhile (fun b => b == false)).length) by
            rw [List.map_map]; rfl,
          chain_takeWhile_flatten _ _ _ hlensR, ← hrevflat]
        rfl
      · rw [show leading_ones (.arr n t) (.arr l)
            = chainRuns t.BITS (l.reverse.map (fun x => leading_ones t x)) from rfl]
        rw [List.map_congr_left (fun x hx =>
            (ih x (hall x (List.mem_reverse.mp hx))).2.2.2),
          show (l.reverse.map fun x => bruteLeading t x true)
            = (l.reverse.map (fun x => (bitSeq t x).reverse)).map
                (fun bl => (bl.takeWhile (fun b => b == true)).length) by
            rw [List.map_map]; rfl,
          chain_takeWhile_flatten _ _ _ hlensR, ← hrevflat]
        rfl

theorem runs_eq_brute_witness :
    wf (Shape.arr 2 (Shape.uint 8)) (V.arr [V.nat 255, V.nat 3]) = true
    ∧ (trailing_zeros (Shape.arr 2 (Shape.uint 8)) (V.arr [V.nat 255, V.nat 3])
        = bruteTrailing (Shape.arr 2 (Shape.uint 8)) (V.arr [V.nat 255, V.nat 3]) false
      ∧ trailing_ones (Shape.arr 2 (Shape.uint 8)) (V.arr [V.nat 255, V.nat 3])
        = bruteTrailing (Shape.arr 2 (Shape.uint 8)) (V.arr [V.nat 255, V.nat 3]) true
      ∧ leading_zeros (Shape.arr 2 (Shape.uint 8)) (V.arr [V.nat 255, V.nat 3])
        = bruteLeading (Shape.arr 2 (Shape.uint 8)) (V.arr [V.nat 255, V.nat 3]) false
      ∧ leading_ones (Shape.arr 2 (Shape.uint 8)) (V.arr [V.nat 255, V.nat 3])
        = bruteLeading (Shape.arr 2 (Shape.uint 8)) (V.arr [V.nat 255, V.nat 3]) true) :=
  ⟨by decide, runs_eq_brute (Shape.arr 2 (Shape.uint 8)) (V.arr [V.nat 255, V.nat 3]) (by decide)⟩

/-! Claims about the binary formatter. -/

theorem sepOk_cons_zero (L : List Char) : sepOk ('0' :: L) = sepOk L := rfl

theorem sepOk_cons_one (L : List Char) : sepOk ('1' :: L) = sepOk L := rfl

theorem sepOk_underscore_zero (L : List Char) : sepOk ('_' :: '0' :: L) = sepOk ('0' :: L) := by
  simp [sepOk]

theorem sepOk_underscore_one (L : List Char) : sepOk ('_' :: '1' :: L) = sepOk ('1' :: L) := by
  simp [sepOk]

theorem sepOk_binCharsAux (s : Shape) (v : V) :
    ∀ n, sepOk (binCharsAux s v n) = true := by
  intro n
  induction n with
  | zero => rfl
  | succ b ih =>
    simp only [binCharsAux]
    by_cases h4 : (b + 1) % 4 = 0 <;> by_cases hb : bitAt s v b <;>
      simp [h4, hb, sepOk_underscore_zero, sepOk_underscore_one,
        sepOk_cons_zero, sepOk_cons_one, ih]

theorem allowed_binCharsAux (s : Shape) (v : V) :
    ∀ n, (binCharsAux s v n).all (fun c => c == '_' || c == '0' || c == '1') = true := by
  intro n
  induction n with
  | zero => rfl
  | succ b ih =>
    simp only [binCharsAux]
    by_cases h4 : (b + 1) % 4 = 0 <;> by_cases hb : bitAt s v b <;>
      simp [h4, hb, List.all_eq_true] at ih ⊢ <;> exact ih

/-- C5 counterexample: the formatter emits a separator directly after the
`0b` prefix for an 8-bit value, so the zero byte renders with two
underscores as `0b_0000_0000` rather than with a single interior one. -/
theorem binFmt_u8_counterexample :
    binFmt (Shape.uint 8) (V.nat 0) = "0b_0000_0000".data
    ∧ (binFmt (Shape.uint 8) (V.nat 0)).count '_' = 2
    ∧ (binFmt (Shape.uint 8) (V.nat 0))[2]? = some '_' := by
  refine ⟨?_, ?_, ?_⟩ <;> rfl

/-- C5 (amended): a separator is written before the bit at index `b`
exactly when `(b + 1) % 4 == 0`, scanning from the high bit down; every
separator is immediately followed by another character that is not a
separator (hence by a binary digit, the only other characters emitted)
and no separator ends the output; a separator lands directly after the
`0b` prefix precisely when the bit width is a positive multiple of 4 (as
for every native width), while widths not divisible by 4 group from the
low end upward with a digit directly after the prefix. -/
theorem binFmt_separator_discipline (s : Shape) (v : V) :
    sepOk (binChars s v) = true
    ∧ (binChars s v).all (fun c => c == '_' || c == '0' || c == '1') = true
    ∧ ((binChars s v).head? = some '_' ↔ 0 < s.BITS ∧ s.BITS % 4 = 0) := by
  refine ⟨sepOk_binCharsAux s v s.BITS, allowed_binCharsAux s v s.BITS, ?_⟩
  unfold binChars
  cases hn : s.BITS with
  | zero => simp [binCharsAux]
  | succ b =>
    simp only [binCharsAux]
    by_cases h4 : (b + 1) % 4 = 0 <;> by_cases hb : bitAt s v b <;>
      simp [h4, hb]

/-! Claims about positional indexing and the iterator. -/

/-- C6: positional indexing with the bracket operator returns the bare
boolean value of the bit when the index is in range and panics exactly
when the index is at or beyond `S::BITS`; constructing an iterator with
`Bits::with_range` panics exactly when the range end exceeds `S::BITS`. -/
theorem index_and_range_panic (s : Shape) (v : V) (hwf : wf s v = true)
    (i lo hi : Nat) :
    (index_op s v i = none ↔ s.BITS ≤ i)
    ∧ (i < s.BITS → index_op s v i = some (bitAt s v i))
    ∧ (with_range s v lo hi = none ↔ s.BITS < hi) := by
  refine ⟨⟨?_, ?_⟩, ?_, ?_⟩
  · intro hnone
    by_contra hlt
    push_neg at hlt
    obtain ⟨hget, -, -⟩ := raw_ops_spec s v hwf i hlt
    rw [index_op, if_neg (by omega), hget] at hnone
    exact Option.noConfusion hnone
  · intro hle
    simp [index_op, hle]
  · intro hlt
    obtain ⟨hget, -, -⟩ := raw_ops_spec s v hwf i hlt
    rw [index_op, if_neg (by omega), hget]
  · constructor
    · intro hnone
      by_contra hgt
      push_neg at hgt
      rw [with_range, if_neg (by omega)] at hnone
      exact Option.noConfusion hnone
    · intro hgt
      simp [with_range, hgt]

theorem index_and_range_panic_witness :
    wf (Shape.uint 8) (V.nat 5) = true
    ∧ ¬ index_op (Shape.uint 8) (V.nat 5) 3 = none
    ∧ index_op (Shape.uint 8) (V.nat 5) 8 = none
    ∧ with_range (Shape.uint 8) (V.nat 5) 0 9 = none := by
  have h := index_and_range_panic (Shape.uint 8) (V.nat 5) (by decide) 3 0 9
  have h8 := index_and_range_panic (Shape.uint 8) (V.nat 5) (by decide) 8 0 9
  refine ⟨by decide, ?_, h8.1.mpr (by decide), h.2.2.mpr (by decide)⟩
  intro hnone
  have hc := h.1.mp hnone
  simp only [Shape.BITS] at hc
  omega

/-- C10: `Bits::with_range` validates only the range end: construction
succeeds for every range whose end is within `S::BITS`, even with a start
beyond the end, and such an inverted range yields an iterator that
reports zero length and returns `None` from both ends with its state
unchanged. -/
theorem with_range_start_unchecked (s : Shape) (v : V) (lo hi : Nat)
    (hhi : hi ≤ s.BITS) :
    with_range s v lo hi = some ⟨v, lo, hi⟩
    ∧ (hi < lo →
        bitsLen ⟨v, lo, hi⟩ = 0
        ∧ bitsNext s ⟨v, lo, hi⟩ = (none, ⟨v, lo, hi⟩)
        ∧ bitsNextBack s ⟨v, lo, hi⟩ = (none, ⟨v, lo, hi⟩)) := by
  constructor
  · rw [with_range, if_neg (by omega)]
  · intro hlt
    refine ⟨?_, ?_, ?_⟩
    · simp only [bitsLen]
      omega
    · rw [bitsNext, if_neg (by simp only []; omega)]
    · rw [bitsNextBack, if_neg (by simp only []; omega)]

theorem with_range_start_unchecked_witness :
    (3 : Nat) ≤ (Shape.uint 8).BITS
    ∧ (3 : Nat) < 9
    ∧ with_range (Shape.uint 8) (V.nat 0) 9 3 = some ⟨V.nat 0, 9, 3⟩
    ∧ bitsLen ⟨V.nat 0, 9, 3⟩ = 0
    ∧ bitsNext (Shape.uint 8) ⟨V.nat 0, 9, 3⟩ = (none, ⟨V.nat 0, 9, 3⟩)
    ∧ bitsNextBack (Shape.uint 8) ⟨V.nat 0, 9, 3⟩ = (none, ⟨V.nat 0, 9, 3⟩) := by
  have h := with_range_start_unchecked (Shape.uint 8) (V.nat 0) 9 3 (by decide)
  have h2 := h.2 (by decide)
  exact ⟨by decide, by decide, h.1, h2.1, h2.2.1, h2.2.2⟩

/-- Core invariant of the double-ended iterator: an arbitrary interleaving
of forward and backward steps keeps the range inside the original one,
never changes the stored bits, never revisits an index (the consumed
indices together with the remaining range are a permutation of the
original range), yields the stored bit of each consumed index, and
consumes exactly one index per step until the range is exhausted. -/
theorem runSteps_spec (s : Shape) :
    ∀ (ds : List Bool) (b : BitsSt), b.lo ≤ b.hi →
      (runSteps s ds b).2.bits = b.bits
      ∧ b.lo ≤ (runSteps s ds b).2.lo
      ∧ (runSteps s ds b).2.lo ≤ (runSteps s ds b).2.hi
      ∧ (runSteps s ds b).2.hi ≤ b.hi
      ∧ (((runSteps s ds b).1.map Prod.fst)
          ++ List.range' (runSteps s ds b).2.lo
              ((runSteps s ds b).2.hi - (runSteps s ds b).2.lo)).Perm
          (List.range' b.lo (b.hi - b.lo))
      ∧ (∀ p ∈ (runSteps s ds b).1, p.2 = bitAt s b.bits p.1)
      ∧ (runSteps s ds b).1.length = min ds.length (b.hi - b.lo) := by
  intro ds
  induction ds with
  | nil =>
    intro b hb
    exact ⟨rfl, Nat.le_refl _, hb, Nat.le_refl _, by simp [runSteps],
      by simp [runSteps], by simp [runSteps]⟩
  | cons d ds ih =>
    intro b hb
    by_cases hlt : b.lo < b.hi
    · cases d
      · have hb2 : (BitsSt.mk b.bits b.lo (b.hi - 1)).lo ≤ (BitsSt.mk b.bits b.lo (b.hi - 1)).hi := by
          show b.lo ≤ b.hi - 1
          omega
        obtain ⟨ihbits, ihlo, ihord, ihhi, ihperm, ihval, ihlen⟩ := ih ⟨b.bits, b.lo, b.hi - 1⟩ hb2
        simp only [show (BitsSt.mk b.bits b.lo (b.hi - 1)).hi = b.hi - 1 from rfl,
          show (BitsSt.mk b.bits b.lo (b.hi - 1)).lo = b.lo from rfl,
          show (BitsSt.mk b.bits b.lo (b.hi - 1)).bits = b.bits from rfl]
          at ihbits ihlo ihord ihhi ihperm ihval ihlen
        have hred : runSteps s (false :: ds) b
            = ((b.hi - 1, bitAt s b.bits (b.hi - 1))
                :: (runSteps s ds ⟨b.bits, b.lo, b.hi - 1⟩).1,
              (runSteps s ds ⟨b.bits, b.lo, b.hi - 1⟩).2) := by
          simp [runSteps, bitsNextBack, hlt]
        rw [hred]
        dsimp only
        refine ⟨ihbits, ihlo, ihord, by omega, ?_, ?_, ?_⟩
        · simp only [List.map_cons, List.cons_append]
          have hn : b.hi - b.lo = (b.hi - 1 - b.lo) + 1 := by omega
          have hend : b.lo + (b.hi - 1 - b.lo) = b.hi - 1 := by omega
          rw [hn, List.range'_1_concat, hend]
          have hc := (ihperm).cons (b.hi - 1)
          refine hc.trans ?_
          exact (List.perm_append_singleton _ _).symm
        · intro p hp
          rcases List.mem_cons.mp hp with hp | hp
          · rw [hp]
          · exact ihval p hp
        · simp only [List.length_cons, ihlen, List.length_cons]
          omega
      · have hb2 : (BitsSt.mk b.bits (b.lo + 1) b.hi).lo ≤ (BitsSt.mk b.bits (b.lo + 1) b.hi).hi := by
          show b.lo + 1 ≤ b.hi
          omega
        obtain ⟨ihbits, ihlo, ihord, ihhi, ihperm, ihval, ihlen⟩ := ih ⟨b.bits, b.lo + 1, b.hi⟩ hb2
        simp only [show (BitsSt.mk b.bits (b.lo + 1) b.hi).hi = b.hi from rfl,
          show (BitsSt.mk b.bits (b.lo + 1) b.hi).lo = b.lo + 1 from rfl,
          show (BitsSt.mk b.bits (b.lo + 1) b.hi).bits = b.bits from rfl]
          at ihbits ihlo ihord ihhi ihperm ihval ihlen
        have hred : runSteps s (true :: ds) b
            = ((b.lo, bitAt s b.bits b.lo)
                :: (runSteps s ds ⟨b.bits, b.lo + 1, b.hi⟩).1,
              (runSteps s ds ⟨b.bits, b.lo + 1, b.hi⟩).2) := by
          simp [runSteps, bitsNext, hlt]
        rw [hred]
        dsimp only
        refine ⟨ihbits, by omega, ihord, ihhi, ?_, ?_, ?_⟩
        · simp only [List.map_cons, List.cons_append]
          have hn : b.hi - b.lo = (b.hi - (b.lo + 1)) + 1 := by omega
          rw [hn, List.range'_succ]
          exact (ihperm).cons b.lo
        · intro p hp
          rcases List.mem_cons.mp hp with hp | hp
          · rw [hp]
          · exact ihval p hp
        · simp only [List.length_cons, ihlen]
          omega
    · have hred : runSteps s (d :: ds) b = runSteps s ds b := by
        cases d
        · simp [runSteps, bitsNextBack, hlt]
        · simp [runSteps, bitsNext, hlt]
      rw [hred]
      obtain ⟨ihbits, ihlo, ihord, ihhi, ihperm, ihval, ihlen⟩ := ih b hb
      refine ⟨ihbits, ihlo, ihord, ihhi, ihperm, ihval, ?_⟩
      rw [ihlen]
      simp only [List.length_cons]
      omega

/-- C7: for every valid sub-range, the forward step yields and consumes
the range's low end, the backward step the high end, any interleaving of
the two visits each index of the range exactly once with the correct bit
value, the reported length equals the number of indices not yet consumed
at every step, and once the ends meet both step functions return `None`
forever with the state unchanged. -/
theorem iterator_traversal (s : Shape) (v : V) (lo hi : Nat) (ds : List Bool)
    (hwf : wf s v = true) (hlohi : lo ≤ hi) (hhi : hi ≤ s.BITS) :
    (((runSteps s ds ⟨v, lo, hi⟩).1.map Prod.fst)
        ++ List.range' (runSteps s ds ⟨v, lo, hi⟩).2.lo
            (bitsLen (runSteps s ds ⟨v, lo, hi⟩).2)).Perm
        (List.range' lo (hi - lo))
    ∧ ((runSteps s ds ⟨v, lo, hi⟩).1.map Prod.fst).Nodup
    ∧ (∀ p ∈ (runSteps s ds ⟨v, lo, hi⟩).1,
        lo ≤ p.1 ∧ p.1 < hi ∧ p.2 = bitAt s v p.1)
    ∧ (runSteps s ds ⟨v, lo, hi⟩).1.length + bitsLen (runSteps s ds ⟨v, lo, hi⟩).2
        = hi - lo
    ∧ (runSteps s ds ⟨v, lo, hi⟩).1.length = min ds.length (hi - lo)
    ∧ (hi - lo ≤ ds.length →
        ((runSteps s ds ⟨v, lo, hi⟩).1.map Prod.fst).Perm (List.range' lo (hi - lo)))
    ∧ (bitsLen (runSteps s ds ⟨v, lo, hi⟩).2 = 0 →
        bitsNext s (runSteps s ds ⟨v, lo, hi⟩).2 = (none, (runSteps s ds ⟨v, lo, hi⟩).2)
        ∧ bitsNextBack s (runSteps s ds ⟨v, lo, hi⟩).2
            = (none, (runSteps s ds ⟨v, lo, hi⟩).2)) := by
  obtain ⟨hbits, hlo2, hord, hhi2, hperm, hval, hlen⟩ :=
    runSteps_spec s ds ⟨v, lo, hi⟩ hlohi
  simp only [show (BitsSt.mk v lo hi).hi = hi from rfl,
    show (BitsSt.mk v lo hi).lo = lo from rfl,
    show (BitsSt.mk v lo hi).bits = v from rfl]
    at hbits hlo2 hord hhi2 hperm hval hlen
  have hperm' : (((runSteps s ds ⟨v, lo, hi⟩).1.map Prod.fst)
      ++ List.range' (runSteps s ds ⟨v, lo, hi⟩).2.lo
          (bitsLen (runSteps s ds ⟨v, lo, hi⟩).2)).Perm
      (List.range' lo (hi - lo)) := hperm
  have hnodup : ((runSteps s ds ⟨v, lo, hi⟩).1.map Prod.fst).Nodup :=
    ((hperm'.symm.nodup (List.nodup_range' ..))).of_append_left
  have hlensum : (runSteps s ds ⟨v, lo, hi⟩).1.length
      + bitsLen (runSteps s ds ⟨v, lo, hi⟩).2 = hi - lo := by
    have := hperm'.length_eq
    simpa [List.length_append, List.length_range'] using this
  refine ⟨hperm', hnodup, ?_, hlensum, hlen, ?_, ?_⟩
  · intro p hp
    have hmem : p.1 ∈ List.range' lo (hi - lo) := by
      apply hperm'.subset
      rw [List.mem_append]
      exact Or.inl (List.mem_map.mpr ⟨p, hp, rfl⟩)
    have := List.mem_range'_1.mp hmem
    exact ⟨this.1, by omega, hval p hp⟩
  · intro hfull
    have hz : bitsLen (runSteps s ds ⟨v, lo, hi⟩).2 = 0 := by omega
    have hnil : List.range' (runSteps s ds ⟨v, lo, hi⟩).2.lo
        (bitsLen (runSteps s ds ⟨v, lo, hi⟩).2) = [] := by
      rw [hz]
      rfl
    rw [hnil, List.append_nil] at hperm'
    exact hperm'
  · intro hz
    have hnlt : ¬ (runSteps s ds ⟨v, lo, hi⟩).2.lo < (runSteps s ds ⟨v, lo, hi⟩).2.hi := by
      simp only [bitsLen] at hz
      omega
    constructor
    · rw [bitsNext, if_neg hnlt]
    · rw [bitsNextBack, if_neg hnlt]

theorem iterator_traversal_witness :
    wf (Shape.uint 4) (V.nat 10) = true
    ∧ (1 : Nat) ≤ 4 ∧ (4 : Nat) ≤ (Shape.uint 4).BITS
    ∧ (runSteps (Shape.uint 4) [true, false, true] ⟨V.nat 10, 1, 4⟩).1
        = [(1, true), (3, true), (2, false)]
    ∧ ((runSteps (Shape.uint 4) [true, false, true] ⟨V.nat 10, 1, 4⟩).1.map Prod.fst).Nodup
    ∧ (runSteps (Shape.uint 4) [true, false, true] ⟨V.nat 10, 1, 4⟩).1.length
        = min 3 (4 - 1) := by
  have h := iterator_traversal (Shape.uint 4) (V.nat 10) 1 4 [true, false, true]
    (by decide) (by decide) (by decide)
  refine ⟨by decide, by decide, by decide, by rfl, h.2.1, h.2.2.2.2.1⟩

end Bitarr
